import Mathlib

/-!
# Verification of the genconf2md conversion core

A shallow embedding of `genconf2md.py`: the HTML-to-markdown transducer
(`html_to_markdown`), the footnote table converter (`format_footnotes`),
the session-label resolver (`parse_session`), the first-Saturday date
fallback (`get_first_saturday`), the document assembler (`build_markdown`)
and the filename sanitizer (`sanitize_filename`), together with theorems
settling the specification claims about them.

Strings are modelled through their character lists.  Python `str.strip`,
`str.lower`, `str.split("\n")`, `"\n".join`, the `in` substring test and
the regex substitutions used by the source are given explicit executable
models on `List Char` (ASCII whitespace, as exercised by the source data).
-/

/-- ASCII whitespace, the character class matched by Python's `\s` and
stripped by `str.strip` on the ASCII plane. -/
def isSpace (c : Char) : Bool :=
  c == ' ' || c == '\t' || c == '\n' || c == '\r' || c == '\x0b' || c == '\x0c'

/-- Model of Python `str.strip` on a character list: drop whitespace from
both ends. -/
def stripList (l : List Char) : List Char :=
  ((l.dropWhile isSpace).reverse.dropWhile isSpace).reverse

/-- Model of Python `str.strip`. -/
def pstrip (s : String) : String :=
  String.mk (stripList s.data)

/-- Model of Python `s.split("\n")`: split at every newline; always returns
at least one (possibly empty) piece. -/
def splitNl : List Char → List (List Char)
  | [] => [[]]
  | c :: t =>
    match splitNl t with
    | [] => [[]]
    | h :: r => if c == '\n' then [] :: h :: r else (c :: h) :: r

/-- `splitNl` lifted to strings. -/
def splitLines (s : String) : List String :=
  (splitNl s.data).map String.mk

/-- Model of Python `"\n".join`. -/
def joinNl : List String → String
  | [] => ""
  | [x] => x
  | x :: xs => x ++ "\n" ++ joinNl xs

/-- Lower-case an ASCII letter, the identity elsewhere (model of Python
`str.lower` on the character sets the source compares against). -/
def lowerChar (c : Char) : Char :=
  if 'A' ≤ c && c ≤ 'Z' then Char.ofNat (c.toNat + 32) else c

/-- Model of Python `str.lower`. -/
def asciiLower (s : String) : String :=
  String.mk (s.data.map lowerChar)

/-- Substring test on character lists (model of Python's `needle in hay`). -/
def hasSub (needle : List Char) : List Char → Bool
  | [] => needle.isEmpty
  | c :: t => needle.isPrefixOf (c :: t) || hasSub needle t

/-- Model of Python's `needle in hay` substring test. -/
def strContains (hay needle : String) : Bool :=
  hasSub needle.data hay.data

/-- Model of Python `str.startswith`. -/
def strStartsWith (s pre : String) : Bool :=
  pre.data.isPrefixOf s.data

/-- The non-whitespace characters of a string, in order. -/
def nonWsChars (s : String) : List Char :=
  s.data.filter (fun c => !isSpace c)

/-- The nine characters removed by `sanitize_filename`
(regex class `[<>:"/\|?*]` in the source). -/
def invalidFileChar (c : Char) : Bool :=
  c == '<' || c == '>' || c == ':' || c == '"' || c == '/' || c == '\\' ||
  c == '|' || c == '?' || c == '*'

/-- Model of `re.sub(r"\s+", " ", ·)`: replace each maximal run of
whitespace by a single space. -/
def collapseWs : List Char → List Char
  | [] => []
  | [c] => [if isSpace c then ' ' else c]
  | c1 :: c2 :: t =>
    if isSpace c1 && isSpace c2 then collapseWs (c2 :: t)
    else (if isSpace c1 then ' ' else c1) :: collapseWs (c2 :: t)

/-- `sanitize_filename` from the source: delete the invalid characters,
collapse whitespace runs to single spaces, strip the ends. -/
def sanitize_filename (s : String) : String :=
  String.mk (stripList (collapseWs (s.data.filter (fun c => !invalidFileChar c))))

/-- First maximal run of decimal digits in a character list (model of
`re.search(r"\d+", ·)`), `none` when there is no digit. -/
def firstRunAux : List Char → Option (List Char)
  | [] => none
  | c :: t => if c.isDigit then some (c :: t.takeWhile Char.isDigit) else firstRunAux t

/-- First digit run of a string key (model of `re.search(r"\d+", k)`). -/
def keyRun (k : String) : Option (List Char) :=
  firstRunAux k.data

/-- Decimal value of a digit list (model of Python `int` on a digit run). -/
def digitsVal (l : List Char) : Nat :=
  l.foldl (fun a c => a * 10 + (c.toNat - 48)) 0

/-- Numeric sort key of a footnote id: the value of its first digit run. -/
def keyVal (k : String) : Nat :=
  digitsVal ((keyRun k).getD [])

/-!
## The node tree

BeautifulSoup's parsed tree: a node is a text node (`NavigableString`) or
an element (`Tag`) with a tag name, a `class` token list, the remaining
attributes, and an ordered child list.  `Node` and `NodeList` are a mutual
pair so that all functions below are structurally recursive (and hence
kernel-reducible on concrete trees).
-/

mutual
inductive Node where
  | text (s : String)
  | elem (tag : String) (classes : List String) (attrs : List (String × String))
      (children : NodeList)
inductive NodeList where
  | nil
  | cons (head : Node) (tail : NodeList)
end

/-- Attribute lookup (model of `element.get(key)` for string attributes). -/
def getAttr (attrs : List (String × String)) (k : String) : Option String :=
  attrs.lookup k

/-- Attribute lookup on a node; text nodes have no attributes. -/
def nodeAttr : Node → String → Option String
  | .text _, _ => none
  | .elem _ _ attrs _, k => getAttr attrs k

mutual
/-- Concatenated text of all text nodes (model of `get_text()`). -/
def textContent : Node → String
  | .text s => s
  | .elem _ _ _ ch => textContentL ch
def textContentL : NodeList → String
  | .nil => ""
  | .cons c cs => textContent c ++ textContentL cs
end

mutual
/-- Model of `get_text(strip=True)`: each text piece is stripped and the
results concatenated. -/
def getTextStrip : Node → String
  | .text s => pstrip s
  | .elem _ _ _ ch => getTextStripL ch
def getTextStripL : NodeList → String
  | .nil => ""
  | .cons c cs => getTextStrip c ++ getTextStripL cs
end

mutual
/-- First element with the given tag, descending preorder (model of
`element.find(tag)` searching the descendants of a node). -/
def findTagN (t : String) : Node → Option Node
  | .text _ => none
  | .elem tg cls attrs ch =>
    if tg == t then some (.elem tg cls attrs ch) else findTagL t ch
def findTagL (t : String) : NodeList → Option Node
  | .nil => none
  | .cons c cs =>
    match findTagN t c with
    | some r => some r
    | none => findTagL t cs
end

/-- Whether a node is an `li` element (the `find_all("li", recursive=False)`
selection test). -/
def isLi : Node → Bool
  | .elem tg _ _ _ => tg == "li"
  | .text _ => false

/-- Whether every node of a list is an `li` element. -/
def allLi : NodeList → Bool
  | .nil => true
  | .cons c cs => isLi c && allLi cs

/-- The fixed origin prefixed to relative hrefs. -/
def ORIGIN : String := "https://www.churchofjesuschrist.org"

/-- Href normalization shared by the body converter (lines 98-100) and the
footnote converter (lines 149-151): a non-empty href not starting with
`"http"` gets the fixed origin prefixed. -/
def normalizeHref (href : String) : String :=
  if href != "" && !(strStartsWith href "http") then ORIGIN ++ href else href

/-- Marker of a `note-ref` sup: the `data-value` attribute, falling back to
`get_text(strip=True)` (line 94 of the source). -/
def supMarker (sup : Node) : String :=
  match nodeAttr sup "data-value" with
  | some v => v
  | none => getTextStrip sup

/-- The blockquote line rewriting (lines 65-75): split the stripped child
text into lines, strip each line, prefix `"> "` to lines that are non-empty
after stripping and replace the others with `">"`, rejoin with newlines. -/
def quoteBlock (childText : String) : String :=
  joinNl ((splitLines (pstrip childText)).map (fun line =>
    let st := pstrip line
    if st = "" then ">" else "> " ++ st)) ++ "\n\n"

/-- `"#" * level` for the heading tags `h2`, `h3`, `h4`. -/
def headingHashes (tag : String) : String :=
  if tag == "h2" then "##" else if tag == "h3" then "###" else "####"

mutual
/-- The markup transducer `html_to_markdown` (lines 43-125 of the source),
converting a node tree to markdown text. -/
def html_to_markdown : Node → String
  | .text s => s
  | .elem tag classes attrs children =>
    if tag == "video" || tag == "audio" || tag == "script" || tag == "style" then ""
    else if tag == "span" && classes.contains "page-break" then ""
    else
      let children_md := convertChildren children
      if tag == "p" then pstrip children_md ++ "\n\n"
      else if tag == "blockquote" then quoteBlock children_md
      else if tag == "em" || tag == "i" then "*" ++ children_md ++ "*"
      else if tag == "strong" || tag == "b" then "**" ++ children_md ++ "**"
      else if tag == "cite" then "*" ++ children_md ++ "*"
      else if tag == "sup" then children_md
      else if tag == "a" then
        if classes.contains "note-ref" then
          match findTagL "sup" children with
          | some sup => "[^" ++ supMarker sup ++ "]"
          | none => ""
        else
          let href := normalizeHref ((getAttr attrs "href").getD "")
          let link_text := pstrip children_md
          if href != "" && link_text != "" then
            "[" ++ link_text ++ "](" ++ href ++ ")"
          else link_text
      else if tag == "h2" || tag == "h3" || tag == "h4" then
        headingHashes tag ++ " " ++ pstrip children_md ++ "\n\n"
      else if tag == "ul" then
        joinNl (convertUlItems children) ++ "\n\n"
      else if tag == "ol" then
        joinNl (convertOlItems 1 children) ++ "\n\n"
      else children_md
/-- Concatenated conversion of a child list (line 60 of the source). -/
def convertChildren : NodeList → String
  | .nil => ""
  | .cons c cs => html_to_markdown c ++ convertChildren cs
/-- The `ul` items: each direct `li` child converted, stripped, and
prefixed with `"- "`; other children are skipped (lines 110-115). -/
def convertUlItems : NodeList → List String
  | .nil => []
  | .cons (.text _) cs => convertUlItems cs
  | .cons (.elem tg cls attrs ch) cs =>
    if tg == "li" then
      ("- " ++ pstrip (html_to_markdown (.elem tg cls attrs ch))) :: convertUlItems cs
    else convertUlItems cs
/-- The `ol` items: direct `li` children numbered from 1 (lines 117-122). -/
def convertOlItems (i : Nat) : NodeList → List String
  | .nil => []
  | .cons (.text _) cs => convertOlItems i cs
  | .cons (.elem tg cls attrs ch) cs =>
    if tg == "li" then
      (toString i ++ ". " ++ pstrip (html_to_markdown (.elem tg cls attrs ch)))
        :: convertOlItems (i + 1) cs
    else convertOlItems i cs
end

/-!
## Footnote table converter

`format_footnotes` (lines 128-162).  The id→fragment mapping is modelled as
an association list in dict iteration (= insertion) order, with each
`note["text"]` fragment already parsed into a `NodeList` (the parse itself
is the external BeautifulSoup collaborator).  The in-place `replace_with`
rewriting of `a` and `cite` tags is modelled as two recursive passes that
replace each outermost such element by the text it is rewritten to; Python
raises on a missing digit run (`re.search(...).group()` on `None`), which
the model renders as `none`.  Python's stable `sorted` is modelled by
`List.insertionSort`, which is likewise stable.
-/

mutual
/-- First rewriting pass (lines 148-153): every `a` element becomes the
plain text `"[" + get_text() + "](" + normalized href + ")"`. -/
def fnRewriteA : Node → Node
  | .text s => .text s
  | .elem t cl attrs ch =>
    if t == "a" then
      .text ("[" ++ textContentL ch ++ "](" ++
        normalizeHref ((getAttr attrs "href").getD "") ++ ")")
    else .elem t cl attrs (fnRewriteAL ch)
def fnRewriteAL : NodeList → NodeList
  | .nil => .nil
  | .cons c cs => .cons (fnRewriteA c) (fnRewriteAL cs)
end

mutual
/-- Second rewriting pass (lines 156-157): every `cite` element becomes
`"*" + get_text() + "*"`. -/
def fnRewriteCite : Node → Node
  | .text s => .text s
  | .elem t cl attrs ch =>
    if t == "cite" then .text ("*" ++ textContentL ch ++ "*")
    else .elem t cl attrs (fnRewriteCiteL ch)
def fnRewriteCiteL : NodeList → NodeList
  | .nil => .nil
  | .cons c cs => .cons (fnRewriteCite c) (fnRewriteCiteL cs)
end

/-- Converted text of one footnote fragment (lines 145-159): rewrite links,
rewrite cites, take the flattened text, strip it. -/
def footnoteText (frag : NodeList) : String :=
  pstrip (textContentL (fnRewriteCiteL (fnRewriteAL frag)))

/-- One emitted footnote definition line (line 160):
`"[^" + marker + "]: " + text`, the marker being the id's digit run. -/
def fnLine (fd : List (String × NodeList)) (k : String) : String :=
  "[^" ++ String.mk ((keyRun k).getD []) ++ "]: " ++
    footnoteText ((fd.lookup k).getD .nil)

/-- `format_footnotes` (lines 128-162): empty mapping → `""`; keys sorted
stably by the numeric value of their first digit run, one line per entry,
joined by newlines; `none` models the `AttributeError` raised when some key
has no digit run. -/
def format_footnotes (fd : List (String × NodeList)) : Option String :=
  if fd.isEmpty then some ""
  else if fd.all (fun kv => (keyRun kv.1).isSome) then
    some (joinNl
      (((fd.map Prod.fst).insertionSort (fun a b => keyVal a ≤ keyVal b)).map
        (fnLine fd)))
  else none

/-!
## Session resolver, date fallback, assembler, sanitizer
-/

/-- `parse_session` (lines 194-218): day defaults to `"Sat"`, switched to
`"Sun"`/`"Sat"` by a case-insensitive substring match; the session time is
the first of Morning/Afternoon/Evening found, defaulting to Morning. -/
def parse_session (s : String) : String × String :=
  if s = "" then ("Sat", "Morning")
  else
    let low := asciiLower s
    ((if strContains low "sunday" then "Sun"
      else if strContains low "saturday" then "Sat"
      else "Sat"),
     (if strContains low "morning" then "Morning"
      else if strContains low "afternoon" then "Afternoon"
      else if strContains low "evening" then "Evening"
      else "Morning"))

/-- A proleptic Gregorian calendar date (model of `datetime.date`). -/
structure MDate where
  year : Nat
  month : Nat
  day : Nat
deriving DecidableEq, Repr

/-- Gregorian leap-year test. -/
def isLeapYear (y : Nat) : Bool :=
  y % 4 == 0 && (y % 100 != 0 || y % 400 == 0)

/-- Days in a month (month 1-12; 0 outside that range). -/
def daysInMonth (y m : Nat) : Nat :=
  if m = 1 || m = 3 || m = 5 || m = 7 || m = 8 || m = 10 || m = 12 then 31
  else if m = 4 || m = 6 || m = 9 || m = 11 then 30
  else if m = 2 then (if isLeapYear y then 29 else 28)
  else 0

/-- Days of year `y` before the first of month `m`. -/
def daysBeforeMonth (y : Nat) : Nat → Nat
  | 0 => 0
  | m + 1 => daysBeforeMonth y m + daysInMonth y m

/-- Days before January 1st of year `y` in the proleptic Gregorian
calendar. -/
def daysBeforeYear (y : Nat) : Nat :=
  (y - 1) * 365 + (y - 1) / 4 + (y - 1) / 400 - (y - 1) / 100

/-- Rata die day number: `rataDie 1 1 1 = 1`. -/
def rataDie (y m d : Nat) : Nat :=
  daysBeforeYear y + daysBeforeMonth y m + d

/-- Day of week with Monday = 0 … Sunday = 6 (Python `date.weekday()`;
0001-01-01 is a Monday). -/
def weekday (y m d : Nat) : Nat :=
  (rataDie y m d + 6) % 7

/-- Calendar successor-by-days (model of `date + timedelta(days=n)`). -/
def addDays (dt : MDate) : Nat → MDate
  | 0 => dt
  | n + 1 =>
    if dt.day < daysInMonth dt.year dt.month then
      addDays ⟨dt.year, dt.month, dt.day + 1⟩ n
    else if dt.month < 12 then addDays ⟨dt.year, dt.month + 1, 1⟩ n
    else addDays ⟨dt.year + 1, 1, 1⟩ n

/-- `get_first_saturday` (lines 27-31): the first of the month advanced by
`(5 - weekday) % 7` days.  Python's mod on the possibly negative `5 - w`
equals `(5 + 7 - w) % 7` on `Nat` since `w ≤ 6`. -/
def get_first_saturday (year month : Nat) : MDate :=
  addDays ⟨year, month, 1⟩ ((5 + 7 - weekday year month 1) % 7)

/-- The extracted talk fields consumed by `build_markdown` (lines 318-330). -/
structure Fields where
  title : String
  date : String
  author : String
  description : String
  content : String
  footnotes : String
  year : String
  month_abbr : String
  day_abbr : String
  session : String
  url : String

/-- `build_markdown` (lines 333-356): the notes block is appended to the
content exactly when the footnotes text is non-empty, then the fixed
front-matter template is filled in. -/
def build_markdown (f : Fields) : String :=
  let content :=
    if f.footnotes = "" then f.content
    else f.content ++ "\n\n---\n\n## Notes\n\n" ++ f.footnotes
  "---\n" ++
  "Date: " ++ f.date ++ "\n" ++
  "Author(s): \"[[" ++ f.author ++ "]]\"\n" ++
  "Source: Church of Jesus Christ of Latter-day Saints\n" ++
  "SourceURL: " ++ f.url ++ "\n" ++
  "Description: " ++ f.description ++ "\n" ++
  "tags: \n" ++
  "   - GeneralConference\n" ++
  "Category:\n" ++
  "SubCategory:\n" ++
  "---\n" ++
  "\n" ++
  "# " ++ f.title ++ "\n" ++
  "\n" ++
  content ++ "\n"

/-!
## Specification-side definitions

Definitions written from the specification's (and the claims') wording, to
be compared with the source-derived definitions above, together with the
tree predicates and concrete inputs used by the claim theorems.
-/

/-- The tags carrying a dedicated branch in the transducer; every other tag
falls through to the transparent pass-through default. -/
def specialTags : List String :=
  ["video", "audio", "script", "style", "span", "p", "blockquote", "em", "i",
   "strong", "b", "cite", "sup", "a", "h2", "h3", "h4", "ul", "ol"]

mutual
/-- The exclusions named by claim C1 as stated: no `script`/`style`/
`video`/`audio` element and no `span` with a `page-break` class. -/
def claimC1Good : Node → Bool
  | .text _ => true
  | .elem tag classes _ ch =>
    !(tag == "video" || tag == "audio" || tag == "script" || tag == "style") &&
    !(tag == "span" && classes.contains "page-break") &&
    claimC1GoodL ch
def claimC1GoodL : NodeList → Bool
  | .nil => true
  | .cons c cs => claimC1Good c && claimC1GoodL cs
end

mutual
/-- The amended exclusions: additionally no `a` element with a `note-ref`
class (its children are replaced by the footnote marker) and every child of
a `ul`/`ol` element is an `li` element (other children are skipped by
`find_all("li", recursive=False)`). -/
def goodNode : Node → Bool
  | .text _ => true
  | .elem tag classes _ ch =>
    !(tag == "video" || tag == "audio" || tag == "script" || tag == "style") &&
    !(tag == "span" && classes.contains "page-break") &&
    !(tag == "a" && classes.contains "note-ref") &&
    (!(tag == "ul" || tag == "ol") || allLi ch) &&
    goodNodeL ch
def goodNodeL : NodeList → Bool
  | .nil => true
  | .cons c cs => goodNode c && goodNodeL cs
end

/-- Claim C2's blockquote rule read literally: each non-empty line of the
trimmed child text is prefixed with `"> "` unchanged, each empty line
becomes `">"`. -/
def blockquoteClaimLit (childText : String) : String :=
  joinNl ((splitLines (pstrip childText)).map (fun line =>
    if line = "" then ">" else "> " ++ line)) ++ "\n\n"

/-- The amended blockquote rule: each line is additionally stripped, lines
non-empty after stripping are prefixed with `"> "`, the others become
`">"`. -/
def blockquoteSpecAmended (childText : String) : String :=
  joinNl ((splitLines (pstrip childText)).map (fun line =>
    let st := pstrip line
    if st = "" then ">" else "> " ++ st)) ++ "\n\n"

/-- Claim C3's `a` rule read literally: the `note-ref` fallback marker is
the sup's trimmed text content, `pstrip (textContent sup)`. -/
def aClaimLit (classes : List String) (attrs : List (String × String))
    (ch : NodeList) : String :=
  if classes.contains "note-ref" then
    match findTagL "sup" ch with
    | some sup =>
      "[^" ++
        (match nodeAttr sup "data-value" with
         | some v => v
         | none => pstrip (textContent sup)) ++ "]"
    | none => ""
  else
    let href := normalizeHref ((getAttr attrs "href").getD "")
    let link_text := pstrip (convertChildren ch)
    if href != "" && link_text != "" then
      "[" ++ link_text ++ "](" ++ href ++ ")"
    else link_text

/-- The amended `a` rule: identical except that the fallback marker is the
concatenation of the sup's individually stripped text pieces
(`get_text(strip=True)`). -/
def aSpecAmended (classes : List String) (attrs : List (String × String))
    (ch : NodeList) : String :=
  if classes.contains "note-ref" then
    match findTagL "sup" ch with
    | some sup => "[^" ++ supMarker sup ++ "]"
    | none => ""
  else
    let href := normalizeHref ((getAttr attrs "href").getD "")
    let link_text := pstrip (convertChildren ch)
    if href != "" && link_text != "" then
      "[" ++ link_text ++ "](" ++ href ++ ")"
    else link_text

/-- The document template of spec §6, with the given body substituted for
`{content}`. -/
def docTemplate (f : Fields) (body : String) : String :=
  "---\n" ++
  "Date: " ++ f.date ++ "\n" ++
  "Author(s): \"[[" ++ f.author ++ "]]\"\n" ++
  "Source: Church of Jesus Christ of Latter-day Saints\n" ++
  "SourceURL: " ++ f.url ++ "\n" ++
  "Description: " ++ f.description ++ "\n" ++
  "tags: \n" ++
  "   - GeneralConference\n" ++
  "Category:\n" ++
  "SubCategory:\n" ++
  "---\n" ++
  "\n" ++
  "# " ++ f.title ++ "\n" ++
  "\n" ++
  body ++ "\n"

/-- C1 counterexample input: a `ul` whose only child is a bare text node —
none of the claim's excluded node kinds, yet its text is dropped. -/
def ulCex : Node := .elem "ul" [] [] (.cons (.text "hello") .nil)

/-- C2 counterexample input: a blockquote with whitespace between its two
paragraphs, so that one line of the split child text carries a leading
space. -/
def bqCexChildren : NodeList :=
  .cons (.elem "p" [] [] (.cons (.text "A") .nil))
    (.cons (.text " ")
      (.cons (.elem "p" [] [] (.cons (.text "B") .nil)) .nil))

/-- The C2 counterexample blockquote element. -/
def bqCex : Node := .elem "blockquote" [] [] bqCexChildren

/-- The blockquote of the end-to-end example
`<blockquote><p>A</p><p>B</p></blockquote>`. -/
def bqExample : Node :=
  .elem "blockquote" [] []
    (.cons (.elem "p" [] [] (.cons (.text "A") .nil))
      (.cons (.elem "p" [] [] (.cons (.text "B") .nil)) .nil))

/-- C3 counterexample children: a `sup` with two text pieces, where
`get_text(strip=True)` and trimmed text content differ. -/
def supCexChildren : NodeList :=
  .cons (.elem "sup" [] [] (.cons (.text "3 ") (.cons (.text " 4") .nil))) .nil

/-- The C3 counterexample `note-ref` anchor. -/
def aCex : Node := .elem "a" ["note-ref"] [] supCexChildren

/-- C4 counterexample mapping: two ids with the same digit run value. -/
def fdCex1 : List (String × NodeList) :=
  [("note1", .cons (.text "A") .nil), ("x1", .cons (.text "B") .nil)]

/-- The same mapping with the two entries swapped. -/
def fdCex2 : List (String × NodeList) :=
  [("x1", .cons (.text "B") .nil), ("note1", .cons (.text "A") .nil)]

/-- Concrete fields with a non-empty footnotes text. -/
def fieldsEx : Fields :=
  ⟨"Title", "2024-04-06", "Author", "Desc", "body", "[^1]: n", "2024", "Apr",
   "Sat", "Morning", "https://example.org"⟩

/-- Concrete fields with an empty footnotes text. -/
def fieldsExNoNotes : Fields :=
  ⟨"Title", "2024-04-06", "Author", "Desc", "body", "", "2024", "Apr",
   "Sat", "Morning", "https://example.org"⟩

/-- The claim C4 example mapping `{"note2": ..., "note1": ...}`. -/
def fdExample : List (String × NodeList) :=
  [("note2", .cons (.text "B") .nil), ("note1", .cons (.text "A") .nil)]

/-- A generic-container example used to witness the pass-through half of
claim C1. -/
def divExample : NodeList := .cons (.text "x") .nil

/-! ## Claim C5 -/

/-- C5: `parse_session` returns `"Sun"` exactly when the label
case-insensitively contains `"sunday"` and `"Sat"` otherwise, and the first
of Morning/Afternoon/Evening whose lowercase form occurs in the lowercased
label, defaulting to `"Morning"`; with the three concrete instances. -/
theorem parse_session_spec :
    (∀ s : String, parse_session s =
      ((if strContains (asciiLower s) "sunday" then "Sun" else "Sat"),
       (if strContains (asciiLower s) "morning" then "Morning"
        else if strContains (asciiLower s) "afternoon" then "Afternoon"
        else if strContains (asciiLower s) "evening" then "Evening"
        else "Morning"))) ∧
    parse_session "Saturday Afternoon Session" = ("Sat", "Afternoon") ∧
    parse_session "" = ("Sat", "Morning") ∧
    parse_session "Sunday Evening Session" = ("Sun", "Evening") := by
  refine ⟨fun s => ?_, by decide, by decide, by decide⟩
  by_cases h : s = ""
  · subst h; decide
  · simp only [parse_session, if_neg h]
    cases hsat : strContains (asciiLower s) "saturday" <;> simp [hsat]

/-! ## Claim C6 -/

theorem addDays_eq (y m : Nat) :
    ∀ (n d : Nat), 1 ≤ d → d + n ≤ daysInMonth y m →
      addDays ⟨y, m, d⟩ n = ⟨y, m, d + n⟩ := by
  intro n
  induction n with
  | zero => intro d _ _; simp [addDays]
  | succ k ih =>
    intro d hd hle
    have hlt : d < daysInMonth y m := by omega
    simp only [addDays, hlt, if_pos]
    rw [ih (d + 1) (by omega) (by omega)]
    congr 1
    omega

theorem daysInMonth_ge28 (y m : Nat) (h1 : 1 ≤ m) (h2 : m ≤ 12) :
    28 ≤ daysInMonth y m := by
  interval_cases m <;>
    (simp [daysInMonth]; all_goals first | omega | (split <;> omega))

/-- C6: for every valid month the fallback date lies in the month, is a
Saturday (weekday 5, Monday = 0), is preceded by no earlier Saturday of
that month, and for April 2024 it is 2024-04-06. -/
theorem get_first_saturday_spec :
    (∀ y m : Nat, 1 ≤ m → m ≤ 12 →
      (get_first_saturday y m).year = y ∧
      (get_first_saturday y m).month = m ∧
      1 ≤ (get_first_saturday y m).day ∧
      (get_first_saturday y m).day ≤ daysInMonth y m ∧
      weekday y m (get_first_saturday y m).day = 5 ∧
      (∀ d, 1 ≤ d → d < (get_first_saturday y m).day → weekday y m d ≠ 5)) ∧
    get_first_saturday 2024 4 = ⟨2024, 4, 6⟩ := by
  refine ⟨fun y m h1 h2 => ?_, rfl⟩
  have h28 := daysInMonth_ge28 y m h1 h2
  have hle : (5 + 7 - weekday y m 1) % 7 ≤ 6 := by omega
  have hday : get_first_saturday y m =
      ⟨y, m, 1 + (5 + 7 - weekday y m 1) % 7⟩ := by
    unfold get_first_saturday
    exact addDays_eq y m _ 1 (by omega) (by omega)
  rw [hday]
  refine ⟨rfl, rfl, ?_, ?_, ?_, ?_⟩
  · show 1 ≤ 1 + (5 + 7 - weekday y m 1) % 7
    omega
  · show 1 + (5 + 7 - weekday y m 1) % 7 ≤ daysInMonth y m
    omega
  · show weekday y m (1 + (5 + 7 - weekday y m 1) % 7) = 5
    simp only [weekday, rataDie]
    omega
  · intro d hd1 hd2 hcon
    have hd2' : d < 1 + (5 + 7 - weekday y m 1) % 7 := hd2
    simp only [weekday, rataDie] at hd2' hcon
    omega

theorem get_first_saturday_witness :
    (get_first_saturday 2024 4).year = 2024 ∧
    (get_first_saturday 2024 4).month = 4 ∧
    1 ≤ (get_first_saturday 2024 4).day ∧
    (get_first_saturday 2024 4).day ≤ daysInMonth 2024 4 ∧
    weekday 2024 4 (get_first_saturday 2024 4).day = 5 ∧
    (∀ d, 1 ≤ d → d < (get_first_saturday 2024 4).day → weekday 2024 4 d ≠ 5) :=
  get_first_saturday_spec.1 2024 4 (by decide) (by decide)

/-! ## Claim C7 -/

/-- C7: the `---` / `## Notes` separator block is appended to the content
before template substitution exactly when the footnotes text is non-empty;
with empty footnotes the assembled document is the template around the bare
content. -/
theorem build_markdown_spec :
    ∀ f : Fields,
      (f.footnotes ≠ "" →
        build_markdown f =
          docTemplate f (f.content ++ "\n\n---\n\n## Notes\n\n" ++ f.footnotes)) ∧
      (f.footnotes = "" → build_markdown f = docTemplate f f.content) := by
  intro f
  constructor <;> intro h <;> simp [build_markdown, docTemplate, h]

theorem build_markdown_spec_witness :
    build_markdown fieldsEx =
      docTemplate fieldsEx
        (fieldsEx.content ++ "\n\n---\n\n## Notes\n\n" ++ fieldsEx.footnotes) ∧
    build_markdown fieldsExNoNotes =
      docTemplate fieldsExNoNotes fieldsExNoNotes.content :=
  ⟨(build_markdown_spec fieldsEx).1 (by decide),
   (build_markdown_spec fieldsExNoNotes).2 rfl⟩

/-! ## Claim C1 -/

/-- C1 counterexample: `ulCex = <ul>hello</ul>` contains none of the node
kinds excluded by the claim, yet its text node's characters are silently
dropped (`find_all("li", recursive=False)` skips non-`li` children). -/
theorem html_to_markdown_drops_ul_text :
    claimC1Good ulCex = true ∧
    html_to_markdown ulCex = "\n\n" ∧
    ¬ List.Sublist (nonWsChars (textContent ulCex))
        (nonWsChars (html_to_markdown ulCex)) := by
  refine ⟨rfl, rfl, fun h => ?_⟩
  have h2 : nonWsChars (textContent ulCex) = ['h', 'e', 'l', 'l', 'o'] := rfl
  have h3 : nonWsChars (html_to_markdown ulCex) = [] := rfl
  rw [h2, h3] at h
  exact absurd (List.sublist_nil.mp h) (by decide)

/-! ## Claim C2 -/

/-- C2 counterexample: with whitespace between the two quoted paragraphs
the source strips each line (`line.strip()`, line 70) before prefixing,
whereas the claim's rule prefixes the line unchanged; the two disagree on
`bqCex`. -/
theorem blockquote_claim_counterexample :
    html_to_markdown bqCex = "> A\n>\n> B\n\n" ∧
    blockquoteClaimLit (convertChildren bqCexChildren) = "> A\n>\n>  B\n\n" ∧
    html_to_markdown bqCex ≠ blockquoteClaimLit (convertChildren bqCexChildren) := by
  exact ⟨rfl, rfl, by decide⟩

/-- C2 amended: the blockquote branch splits the trimmed child text into
lines, strips each line, prefixes `"> "` to the lines non-empty after
stripping, turns the others into `">"`, joins with newlines and appends two
newlines; the end-to-end example holds. -/
theorem blockquote_spec_amended :
    (∀ (cls : List String) (attrs : List (String × String)) (ch : NodeList),
      html_to_markdown (.elem "blockquote" cls attrs ch) =
        blockquoteSpecAmended (convertChildren ch)) ∧
    html_to_markdown bqExample = "> A\n>\n> B\n\n" :=
  ⟨fun _ _ _ => rfl, rfl⟩

/-! ## Claim C3 -/

/-- C3 counterexample: the claim's fallback marker is the sup's trimmed
text content, but the source uses `get_text(strip=True)` (line 94), which
strips every text piece individually; they disagree on a sup holding the
two text pieces `"3 "` and `" 4"`. -/
theorem note_ref_claim_counterexample :
    html_to_markdown aCex = "[^34]" ∧
    aClaimLit ["note-ref"] [] supCexChildren = "[^3  4]" ∧
    html_to_markdown aCex ≠ aClaimLit ["note-ref"] [] supCexChildren := by
  exact ⟨rfl, rfl, by decide⟩

/-- C3 amended: the `a` branch behaves per the claim, except that the
`note-ref` fallback marker is the concatenation of the sup's individually
stripped text pieces. -/
theorem anchor_spec_amended :
    ∀ (cls : List String) (attrs : List (String × String)) (ch : NodeList),
      html_to_markdown (.elem "a" cls attrs ch) = aSpecAmended cls attrs ch :=
  fun _ _ _ => rfl

/-! ## Claim C4 -/

/-- C4 counterexample: two ids with equal digit-run value `1`; the output
depends on the mapping's insertion order, and its markers are not strictly
ascending. -/
theorem format_footnotes_order_counterexample :
    List.Perm fdCex1 fdCex2 ∧
    format_footnotes fdCex1 = some "[^1]: A\n[^1]: B" ∧
    format_footnotes fdCex2 = some "[^1]: B\n[^1]: A" ∧
    format_footnotes fdCex1 ≠ format_footnotes fdCex2 := by
  refine ⟨?_, by decide, by decide, by decide⟩
  exact List.Perm.swap _ _ _

/-! ## Character-preservation lemmas -/

theorem nonWsChars_append (s t : String) :
    nonWsChars (s ++ t) = nonWsChars s ++ nonWsChars t := by
  simp [nonWsChars, String.data_append, List.filter_append]

theorem filter_dropWhile_of_imp (p q : Char → Bool)
    (h : ∀ c, q c = true → p c = false) :
    ∀ l : List Char, (l.dropWhile q).filter p = l.filter p := by
  intro l
  induction l with
  | nil => rfl
  | cons c t ih =>
    by_cases hc : q c = true
    · rw [List.dropWhile_cons_of_pos hc, ih, List.filter_cons_of_neg (by simp [h c hc])]
    · rw [List.dropWhile_cons_of_neg hc]

theorem stripList_filter (l : List Char) :
    (stripList l).filter (fun c => !isSpace c) = l.filter (fun c => !isSpace c) := by
  have himp : ∀ c, isSpace c = true → (fun c => !isSpace c) c = false := by
    intro c hc; simp [hc]
  unfold stripList
  rw [List.filter_reverse, filter_dropWhile_of_imp _ _ himp, List.filter_reverse,
    List.reverse_reverse, filter_dropWhile_of_imp _ _ himp]

theorem nonWsChars_mk (l : List Char) :
    nonWsChars (String.mk l) = l.filter (fun c => !isSpace c) := rfl

theorem nonWsChars_pstrip (s : String) :
    nonWsChars (pstrip s) = nonWsChars s := by
  simp [pstrip, nonWsChars_mk, stripList_filter, nonWsChars]

theorem splitNl_ne_nil : ∀ l : List Char, splitNl l ≠ [] := by
  intro l
  cases l with
  | nil => simp [splitNl]
  | cons c t =>
    simp only [splitNl]
    cases splitNl t with
    | nil => simp
    | cons h r => by_cases hc : c == '\n' <;> simp [hc]

theorem splitNl_flatten_filter (l : List Char) :
    ((splitNl l).map (List.filter (fun c => !isSpace c))).flatten =
      l.filter (fun c => !isSpace c) := by
  induction l with
  | nil => rfl
  | cons c t ih =>
    cases hs : splitNl t with
    | nil => exact absurd hs (splitNl_ne_nil t)
    | cons h r =>
      rw [hs] at ih
      by_cases hc : c == '\n'
      · have hcn : c = '\n' := by simpa using hc
        simp only [splitNl, hs, if_pos hc, List.map_cons, List.flatten_cons]
        subst hcn
        simpa using ih
      · simp only [splitNl, hs, if_neg hc, List.map_cons, List.flatten_cons] at ih ⊢
        by_cases hsp : isSpace c = true
        · simp [List.filter_cons, hsp] at ih ⊢
          simpa using ih
        · simp only [List.filter_cons, hsp] at ih ⊢
          simp only [Bool.not_false, if_pos] at ih ⊢
          simp [ih]

theorem nonWsChars_joinNl :
    ∀ ls : List String, nonWsChars (joinNl ls) = (ls.map nonWsChars).flatten := by
  intro ls
  induction ls with
  | nil => rfl
  | cons x xs ih =>
    cases xs with
    | nil => simp [joinNl]
    | cons y t =>
      show nonWsChars (x ++ "\n" ++ joinNl (y :: t)) = _
      rw [nonWsChars_append, nonWsChars_append, ih]
      have hn : nonWsChars "\n" = [] := rfl
      simp [hn]

theorem map_nonWsChars_splitLines (s : String) :
    (splitLines s).map nonWsChars =
      (splitNl s.data).map (List.filter (fun c => !isSpace c)) := by
  simp only [splitLines, List.map_map]
  rfl

theorem nonWsChars_flatten_lines (s : String) :
    nonWsChars s = ((splitLines (pstrip s)).map nonWsChars).flatten := by
  rw [map_nonWsChars_splitLines, splitNl_flatten_filter]
  show nonWsChars s = nonWsChars (pstrip s)
  rw [nonWsChars_pstrip]

theorem flatten_map_sublist {α : Type} (f g : α → List Char)
    (h : ∀ x, List.Sublist (f x) (g x)) :
    ∀ ls : List α, List.Sublist (ls.map f).flatten (ls.map g).flatten := by
  intro ls
  induction ls with
  | nil => simp
  | cons x xs ih =>
    simp only [List.map_cons, List.flatten_cons]
    exact (h x).append ih

theorem quoteBlock_noDrop (ct : String) :
    List.Sublist (nonWsChars ct) (nonWsChars (quoteBlock ct)) := by
  have hline : ∀ line : String,
      List.Sublist (nonWsChars line)
        (nonWsChars (let st := pstrip line; if st = "" then ">" else "> " ++ st)) := by
    intro line
    show List.Sublist (nonWsChars line)
      (nonWsChars (if pstrip line = "" then ">" else "> " ++ pstrip line))
    by_cases h : pstrip line = ""
    · have hl : nonWsChars line = [] := by rw [← nonWsChars_pstrip, h]; rfl
      simp [hl]
    · rw [if_neg h, nonWsChars_append, nonWsChars_pstrip]
      have hgt : nonWsChars "> " = ['>'] := rfl
      rw [hgt]
      exact List.sublist_append_right ['>'] (nonWsChars line)
  unfold quoteBlock
  rw [nonWsChars_append, nonWsChars_joinNl]
  have hnn : nonWsChars "\n\n" = [] := rfl
  rw [hnn, List.append_nil, List.map_map, nonWsChars_flatten_lines ct]
  exact flatten_map_sublist _ _ (fun x => hline x) _

theorem sublist_nonWs_app_left (s t : String) (l : List Char)
    (h : List.Sublist l (nonWsChars s)) : List.Sublist l (nonWsChars (s ++ t)) := by
  rw [nonWsChars_append]
  exact h.trans (List.sublist_append_left _ _)

theorem sublist_nonWs_app_right (s t : String) (l : List Char)
    (h : List.Sublist l (nonWsChars t)) : List.Sublist l (nonWsChars (s ++ t)) := by
  rw [nonWsChars_append]
  exact h.trans (List.sublist_append_right _ _)

theorem noDrop_fuel : ∀ n : Nat,
    (∀ t : Node, sizeOf t ≤ n → goodNode t = true →
      List.Sublist (nonWsChars (textContent t)) (nonWsChars (html_to_markdown t))) ∧
    (∀ l : NodeList, sizeOf l ≤ n → goodNodeL l = true →
      List.Sublist (nonWsChars (textContentL l)) (nonWsChars (convertChildren l))) ∧
    (∀ l : NodeList, sizeOf l ≤ n → allLi l = true → goodNodeL l = true →
      List.Sublist (nonWsChars (textContentL l))
        ((convertUlItems l).map nonWsChars).flatten) ∧
    (∀ (l : NodeList) (i : Nat), sizeOf l ≤ n → allLi l = true → goodNodeL l = true →
      List.Sublist (nonWsChars (textContentL l))
        ((convertOlItems i l).map nonWsChars).flatten) := by
  intro n
  induction n with
  | zero =>
    refine ⟨fun t hsz _ => absurd hsz ?_, fun l hsz _ => absurd hsz ?_,
      fun l hsz _ _ => absurd hsz ?_, fun l _ hsz _ _ => absurd hsz ?_⟩ <;>
      first
        | (cases t <;> simp)
        | (cases l <;> simp)
  | succ n ih =>
    obtain ⟨ihN, ihL, ihUl, ihOl⟩ := ih
    have hL : ∀ l : NodeList, sizeOf l ≤ n + 1 → goodNodeL l = true →
        List.Sublist (nonWsChars (textContentL l)) (nonWsChars (convertChildren l)) := by
      intro l hsz hgood
      cases l with
      | nil => exact List.nil_sublist _
      | cons c cs =>
        simp only [NodeList.cons.sizeOf_spec] at hsz
        simp only [goodNodeL, Bool.and_eq_true] at hgood
        show List.Sublist (nonWsChars (textContent c ++ textContentL cs))
          (nonWsChars (html_to_markdown c ++ convertChildren cs))
        rw [nonWsChars_append, nonWsChars_append]
        exact (ihN c (by omega) hgood.1).append (ihL cs (by omega) hgood.2)
    have hUl : ∀ l : NodeList, sizeOf l ≤ n + 1 → allLi l = true → goodNodeL l = true →
        List.Sublist (nonWsChars (textContentL l))
          ((convertUlItems l).map nonWsChars).flatten := by
      intro l hsz hli hgood
      cases l with
      | nil => exact List.nil_sublist _
      | cons c cs =>
        simp only [NodeList.cons.sizeOf_spec] at hsz
        simp only [allLi, Bool.and_eq_true] at hli
        simp only [goodNodeL, Bool.and_eq_true] at hgood
        cases c with
        | text s => exact absurd hli.1 (by simp [isLi])
        | elem tg tcls tattrs tch =>
          have htg : (tg == "li") = true := hli.1
          show List.Sublist
            (nonWsChars (textContent (.elem tg tcls tattrs tch) ++ textContentL cs)) _
          rw [nonWsChars_append]
          simp only [convertUlItems, htg, if_pos, List.map_cons, List.flatten_cons]
          refine List.Sublist.append ?_ (ihUl cs (by omega) hli.2 hgood.2)
          rw [nonWsChars_append, nonWsChars_pstrip]
          have hdash : nonWsChars "- " = ['-'] := rfl
          rw [hdash]
          exact (ihN _ (by omega) hgood.1).trans (List.sublist_append_right ['-'] _)
    have hOl : ∀ (l : NodeList) (i : Nat), sizeOf l ≤ n + 1 → allLi l = true →
        goodNodeL l = true →
        List.Sublist (nonWsChars (textContentL l))
          ((convertOlItems i l).map nonWsChars).flatten := by
      intro l i hsz hli hgood
      cases l with
      | nil => exact List.nil_sublist _
      | cons c cs =>
        simp only [NodeList.cons.sizeOf_spec] at hsz
        simp only [allLi, Bool.and_eq_true] at hli
        simp only [goodNodeL, Bool.and_eq_true] at hgood
        cases c with
        | text s => exact absurd hli.1 (by simp [isLi])
        | elem tg tcls tattrs tch =>
          have htg : (tg == "li") = true := hli.1
          show List.Sublist
            (nonWsChars (textContent (.elem tg tcls tattrs tch) ++ textContentL cs)) _
          rw [nonWsChars_append]
          simp only [convertOlItems, htg, if_pos, List.map_cons, List.flatten_cons]
          refine List.Sublist.append ?_ (ihOl cs (i + 1) (by omega) hli.2 hgood.2)
          rw [nonWsChars_append, nonWsChars_append, nonWsChars_pstrip]
          exact (ihN _ (by omega) hgood.1).trans (List.sublist_append_right _ _)
    refine ⟨?_, hL, hUl, hOl⟩
    intro t hsz hgood
    cases t with
    | text s => exact List.Sublist.refl _
    | elem tag cls attrs ch =>
      simp only [Node.elem.sizeOf_spec] at hsz
      have hch : sizeOf ch ≤ n := by omega
      simp only [goodNode, Bool.and_eq_true] at hgood
      obtain ⟨⟨⟨⟨h1, h2⟩, h3⟩, h4⟩, h5⟩ := hgood
      rw [Bool.not_eq_eq_eq_not, Bool.not_true] at h1 h2
      have hsub : List.Sublist (nonWsChars (textContentL ch))
          (nonWsChars (convertChildren ch)) := ihL ch hch h5
      show List.Sublist (nonWsChars (textContentL ch)) _
      simp only [html_to_markdown, h1, h2, Bool.false_eq_true, if_false]
      cases hp : tag == "p" <;> simp only [if_pos, if_false, Bool.false_eq_true]
      case true =>
        rw [nonWsChars_append, nonWsChars_pstrip]
        have hnn : nonWsChars "\n\n" = [] := rfl
        rw [hnn, List.append_nil]
        exact hsub
      cases hbq : tag == "blockquote" <;> simp only [if_pos, if_false, Bool.false_eq_true]
      case true => exact hsub.trans (quoteBlock_noDrop _)
      cases hem : (tag == "em" || tag == "i") <;>
        simp only [if_pos, if_false, Bool.false_eq_true]
      case true =>
        refine sublist_nonWs_app_left _ _ _ (sublist_nonWs_app_right _ _ _ hsub)
      cases hst : (tag == "strong" || tag == "b") <;>
        simp only [if_pos, if_false, Bool.false_eq_true]
      case true =>
        refine sublist_nonWs_app_left _ _ _ (sublist_nonWs_app_right _ _ _ hsub)
      cases hci : tag == "cite" <;> simp only [if_pos, if_false, Bool.false_eq_true]
      case true =>
        refine sublist_nonWs_app_left _ _ _ (sublist_nonWs_app_right _ _ _ hsub)
      cases hsu : tag == "sup" <;> simp only [if_pos, if_false, Bool.false_eq_true]
      case true => exact hsub
      cases ha : tag == "a" <;> simp only [if_pos, if_false, Bool.false_eq_true]
      case true =>
        rw [ha, Bool.true_and, Bool.not_eq_true'] at h3
        simp only [h3, Bool.false_eq_true, if_false]
        cases hhl : (normalizeHref ((getAttr attrs "href").getD "") != "" &&
            pstrip (convertChildren ch) != "") <;>
          simp only [if_pos, if_false, Bool.false_eq_true]
        case true =>
          refine sublist_nonWs_app_left _ _ _ (sublist_nonWs_app_left _ _ _
            (sublist_nonWs_app_left _ _ _ (sublist_nonWs_app_right _ _ _ ?_)))
          rw [nonWsChars_pstrip]
          exact hsub
        case false =>
          rw [nonWsChars_pstrip]
          exact hsub
      cases hh : (tag == "h2" || tag == "h3" || tag == "h4") <;>
        simp only [if_pos, if_false, Bool.false_eq_true]
      case true =>
        refine sublist_nonWs_app_left _ _ _ (sublist_nonWs_app_right _ _ _ ?_)
        rw [nonWsChars_pstrip]
        exact hsub
      cases hul : tag == "ul" <;> simp only [if_pos, if_false, Bool.false_eq_true]
      case true =>
        simp only [hul, Bool.true_or, Bool.not_true, Bool.false_or] at h4
        refine sublist_nonWs_app_left _ _ _ ?_
        rw [nonWsChars_joinNl]
        exact ihUl ch hch h4 h5
      cases hol : tag == "ol" <;> simp only [if_pos, if_false, Bool.false_eq_true]
      case true =>
        simp only [hol, Bool.or_true, Bool.not_true, Bool.false_or] at h4
        refine sublist_nonWs_app_left _ _ _ ?_
        rw [nonWsChars_joinNl]
        exact ihOl ch 1 hch h4 h5
      case false => exact hsub

theorem html_passthrough (tag : String) (cls : List String)
    (attrs : List (String × String)) (ch : NodeList) (h : ¬ tag ∈ specialTags) :
    html_to_markdown (.elem tag cls attrs ch) = convertChildren ch := by
  simp only [specialTags, List.mem_cons, List.not_mem_nil, or_false, not_or] at h
  obtain ⟨hv, hau, hsc, hsty, hsp, hp, hbq, hem, hi, hstr, hb, hci, hsu, ha,
    hh2, hh3, hh4, hul, hol⟩ := h
  simp [html_to_markdown, hv, hau, hsc, hsty, hsp, hp, hbq, hem, hi, hstr, hb,
    hci, hsu, ha, hh2, hh3, hh4, hul, hol]

/-- C1 amended: on trees that additionally contain no `note-ref` anchor and
whose `ul`/`ol` children are all `li` elements, the non-whitespace
characters of every text node survive into the output in document order
(whitespace may be trimmed, tag-specific markers added); and every tag with
no dedicated branch is a transparent container. -/
theorem html_to_markdown_no_silent_drops :
    (∀ t : Node, goodNode t = true →
      List.Sublist (nonWsChars (textContent t)) (nonWsChars (html_to_markdown t))) ∧
    (∀ (tag : String) (cls : List String) (attrs : List (String × String))
      (ch : NodeList), ¬ tag ∈ specialTags →
      html_to_markdown (.elem tag cls attrs ch) = convertChildren ch) :=
  ⟨fun t hg => (noDrop_fuel (sizeOf t)).1 t le_rfl hg,
   fun tag cls attrs ch h => html_passthrough tag cls attrs ch h⟩

theorem html_to_markdown_no_silent_drops_witness :
    List.Sublist (nonWsChars (textContent bqExample))
      (nonWsChars (html_to_markdown bqExample)) ∧
    html_to_markdown (.elem "div" [] [] divExample) = convertChildren divExample :=
  ⟨html_to_markdown_no_silent_drops.1 bqExample (by decide),
   html_to_markdown_no_silent_drops.2 "div" [] [] divExample (by decide)⟩

/-! ## Footnote ordering lemmas -/

theorem lookup_perm {β : Type} :
    ∀ {l₁ l₂ : List (String × β)}, List.Perm l₁ l₂ →
      (l₁.map Prod.fst).Nodup → ∀ k, l₁.lookup k = l₂.lookup k := by
  intro l₁ l₂ h
  induction h with
  | nil => intro _ k; rfl
  | cons x h ih =>
    intro hnd k
    simp only [List.map_cons, List.nodup_cons] at hnd
    cases hk : k == x.1 <;> simp [List.lookup, hk, ih hnd.2 k]
  | swap x y l =>
    intro hnd k
    simp only [List.map_cons, List.nodup_cons, List.mem_cons, not_or] at hnd
    cases hky : k == y.1 <;> cases hkx : k == x.1 <;>
      simp [List.lookup, hky, hkx]
    have h1 : k = y.1 := by simpa using hky
    have h2 : k = x.1 := by simpa using hkx
    exact absurd (h1 ▸ h2.symm) (Ne.symm hnd.1.1)
  | trans h1 h2 ih1 ih2 =>
    intro hnd k
    rw [ih1 hnd k, ih2 (((h1.map Prod.fst).nodup_iff).mp hnd) k]

theorem sorted_lt_perm_eq {α : Type} (v : α → Nat) :
    ∀ {l₁ l₂ : List α}, List.Perm l₁ l₂ →
      l₁.Pairwise (fun a b => v a < v b) →
      l₂.Pairwise (fun a b => v a < v b) → l₁ = l₂ := by
  intro l₁
  induction l₁ with
  | nil => intro l₂ h _ _; exact (h.symm.eq_nil).symm
  | cons a t ih =>
    intro l₂ h hp1 hp2
    cases l₂ with
    | nil => exact absurd h.eq_nil (by simp)
    | cons b t₂ =>
      by_cases hab : a = b
      · subst hab
        rw [ih h.cons_inv hp1.of_cons hp2.of_cons]
      · exfalso
        have ha2 : a ∈ t₂ := by
          have := h.mem_iff.mp (List.mem_cons_self a t)
          simpa [hab] using this
        have hb1 : b ∈ t := by
          have := h.symm.mem_iff.mp (List.mem_cons_self b t₂)
          simpa [Ne.symm hab] using this
        have h1 := (List.pairwise_cons.mp hp1).1 b hb1
        have h2 := (List.pairwise_cons.mp hp2).1 a ha2
        omega

theorem format_footnotes_eq (fd : List (String × NodeList)) (h1 : fd ≠ [])
    (h2 : ∀ kv ∈ fd, (keyRun kv.1).isSome) :
    format_footnotes fd = some (joinNl
      (((fd.map Prod.fst).insertionSort (fun a b => keyVal a ≤ keyVal b)).map
        (fnLine fd))) := by
  have he : fd.isEmpty = false := by
    cases fd with
    | nil => exact absurd rfl h1
    | cons x xs => rfl
  have ha : fd.all (fun kv => (keyRun kv.1).isSome) = true := List.all_eq_true.mpr h2
  simp [format_footnotes, he, ha]

theorem nodup_keys_of_pairwise (fd : List (String × NodeList))
    (h : fd.Pairwise (fun a b => keyVal a.1 ≠ keyVal b.1)) :
    (fd.map Prod.fst).Nodup :=
  h.map Prod.fst (fun _ _ hab he => hab (congrArg keyVal he))

theorem pairwise_vals_keys (fd : List (String × NodeList))
    (h : fd.Pairwise (fun a b => keyVal a.1 ≠ keyVal b.1)) :
    (fd.map Prod.fst).Pairwise (fun x y => keyVal x ≠ keyVal y) :=
  h.map Prod.fst (fun _ _ hab => hab)

theorem sorted_keys_strict (fd : List (String × NodeList))
    (h : fd.Pairwise (fun a b => keyVal a.1 ≠ keyVal b.1)) :
    ((fd.map Prod.fst).insertionSort (fun a b => keyVal a ≤ keyVal b)).Pairwise
      (fun a b => keyVal a < keyVal b) := by
  haveI hT : IsTotal String (fun a b => keyVal a ≤ keyVal b) :=
    ⟨fun a b => Nat.le_total _ _⟩
  haveI hTr : IsTrans String (fun a b => keyVal a ≤ keyVal b) :=
    ⟨fun a b c hab hbc => Nat.le_trans hab hbc⟩
  have hs := List.sorted_insertionSort (fun a b => keyVal a ≤ keyVal b) (fd.map Prod.fst)
  have hperm := List.perm_insertionSort (fun a b => keyVal a ≤ keyVal b) (fd.map Prod.fst)
  have hne := (hperm.pairwise_iff (fun hxy => Ne.symm hxy)).mpr
    (pairwise_vals_keys fd h)
  exact (hs.and hne).imp (fun hab => Nat.lt_of_le_of_ne hab.1 hab.2)

/-- C4 amended: empty mapping → `""`; the claim's `note2`/`note1` example;
and for every non-empty mapping whose keys all carry a digit run with
pairwise distinct values, the output is one `"[^marker]: text"` line per
entry joined by newlines, ordered strictly ascending by digit-run value,
independently of the mapping's insertion order.  (As stated the claim fails
when two ids share a digit value: the stable sort then preserves insertion
order.) -/
theorem format_footnotes_spec :
    format_footnotes [] = some "" ∧
    format_footnotes fdExample = some "[^1]: A\n[^2]: B" ∧
    (∀ fd : List (String × NodeList),
      fd ≠ [] →
      (∀ kv ∈ fd, (keyRun kv.1).isSome) →
      fd.Pairwise (fun a b => keyVal a.1 ≠ keyVal b.1) →
      ∃ ks : List String,
        List.Perm ks (fd.map Prod.fst) ∧
        ks.Pairwise (fun a b => keyVal a < keyVal b) ∧
        format_footnotes fd = some (joinNl (ks.map (fnLine fd))) ∧
        (∀ fd' : List (String × NodeList), List.Perm fd' fd →
          format_footnotes fd' = format_footnotes fd)) := by
  refine ⟨rfl, by decide, ?_⟩
  intro fd h1 h2 h3
  refine ⟨(fd.map Prod.fst).insertionSort (fun a b => keyVal a ≤ keyVal b),
    List.perm_insertionSort _ _, sorted_keys_strict fd h3,
    format_footnotes_eq fd h1 h2, ?_⟩
  intro fd' hperm
  have h1' : fd' ≠ [] := by
    intro he
    rw [he] at hperm
    exact h1 hperm.symm.eq_nil
  have h2' : ∀ kv ∈ fd', (keyRun kv.1).isSome :=
    fun kv hkv => h2 kv (hperm.mem_iff.mp hkv)
  have h3' : fd'.Pairwise (fun a b => keyVal a.1 ≠ keyVal b.1) :=
    (hperm.pairwise_iff (fun hxy => Ne.symm hxy)).mpr h3
  rw [format_footnotes_eq fd' h1' h2', format_footnotes_eq fd h1 h2]
  have hkeq : (fd'.map Prod.fst).insertionSort (fun a b => keyVal a ≤ keyVal b) =
      (fd.map Prod.fst).insertionSort (fun a b => keyVal a ≤ keyVal b) := by
    apply sorted_lt_perm_eq keyVal
    · exact (List.perm_insertionSort _ _).trans
        ((hperm.map Prod.fst).trans (List.perm_insertionSort _ _).symm)
    · exact sorted_keys_strict fd' h3'
    · exact sorted_keys_strict fd h3
  rw [hkeq]
  have hmap : ((fd.map Prod.fst).insertionSort (fun a b => keyVal a ≤ keyVal b)).map
        (fnLine fd') =
      ((fd.map Prod.fst).insertionSort (fun a b => keyVal a ≤ keyVal b)).map
        (fnLine fd) := by
    apply List.map_congr_left
    intro k _
    unfold fnLine
    rw [lookup_perm hperm (nodup_keys_of_pairwise fd' h3') k]
  rw [hmap]

theorem format_footnotes_spec_witness :
    ∃ ks : List String,
      List.Perm ks (fdExample.map Prod.fst) ∧
      ks.Pairwise (fun a b => keyVal a < keyVal b) ∧
      format_footnotes fdExample = some (joinNl (ks.map (fnLine fdExample))) ∧
      (∀ fd' : List (String × NodeList), List.Perm fd' fdExample →
        format_footnotes fd' = format_footnotes fdExample) := by
  apply format_footnotes_spec.2.2 fdExample
  · intro h
    simp [fdExample] at h
  · intro kv hkv
    simp only [fdExample, List.mem_cons, List.not_mem_nil, or_false] at hkv
    rcases hkv with rfl | rfl <;> rfl
  · refine List.Pairwise.cons (fun b hb => ?_)
      (List.Pairwise.cons (fun b hb => absurd hb (List.not_mem_nil b))
        List.Pairwise.nil)
    rcases List.mem_singleton.mp hb with rfl
    decide

/-! ## Sanitizer lemmas -/

theorem collapseWs_head :
    ∀ (t : List Char) (c : Char),
      (collapseWs (c :: t)).head? = some (if isSpace c = true then ' ' else c) := by
  intro t
  induction t with
  | nil => intro c; simp [collapseWs]
  | cons c2 t2 ih =>
    intro c
    by_cases hc : isSpace c = true <;> by_cases hc2 : isSpace c2 = true <;>
      simp [collapseWs, hc, hc2, ih]

theorem mem_collapseWs (l : List Char) : ∀ c ∈ collapseWs l, c ∈ l ∨ c = ' ' := by
  induction l using collapseWs.induct with
  | case1 => simp [collapseWs]
  | case2 c =>
    intro x hx
    simp only [collapseWs] at hx
    rcases List.mem_singleton.mp hx with rfl
    split <;> simp
  | case3 c1 c2 t hif ih =>
    intro x hx
    rw [show collapseWs (c1 :: c2 :: t) = collapseWs (c2 :: t) from by
      simp [collapseWs, hif]] at hx
    rcases ih x hx with h | h
    · exact Or.inl (List.mem_cons_of_mem c1 h)
    · exact Or.inr h
  | case4 c1 c2 t hif ih =>
    intro x hx
    rw [show collapseWs (c1 :: c2 :: t) =
        (if isSpace c1 then ' ' else c1) :: collapseWs (c2 :: t) from by
      simp [collapseWs, hif]] at hx
    rcases List.mem_cons.mp hx with rfl | hx2
    · split
      · exact Or.inr rfl
      · exact Or.inl (List.mem_cons_self _ _)
    · rcases ih x hx2 with h | h
      · exact Or.inl (List.mem_cons_of_mem c1 h)
      · exact Or.inr h

theorem collapseWs_ws_space (l : List Char) :
    ∀ c ∈ collapseWs l, isSpace c = true → c = ' ' := by
  induction l using collapseWs.induct with
  | case1 => simp [collapseWs]
  | case2 c =>
    intro x hx hws
    rcases List.mem_singleton.mp hx with rfl
    by_cases hc : isSpace c = true
    · simp [hc]
    · rw [if_neg hc] at hws
      exact absurd hws hc
  | case3 c1 c2 t hif ih =>
    intro x hx hws
    rw [show collapseWs (c1 :: c2 :: t) = collapseWs (c2 :: t) from by
      simp [collapseWs, hif]] at hx
    exact ih x hx hws
  | case4 c1 c2 t hif ih =>
    intro x hx hws
    rw [show collapseWs (c1 :: c2 :: t) =
        (if isSpace c1 then ' ' else c1) :: collapseWs (c2 :: t) from by
      simp [collapseWs, hif]] at hx
    rcases List.mem_cons.mp hx with rfl | hx2
    · by_cases hc : isSpace c1 = true
      · simp [hc]
      · rw [if_neg hc] at hws
        exact absurd hws hc
    · exact ih x hx2 hws

theorem collapseWs_chain (l : List Char) :
    List.Chain' (fun a b => isSpace a = false ∨ isSpace b = false) (collapseWs l) := by
  induction l using collapseWs.induct with
  | case1 => simp [collapseWs]
  | case2 c => simp [collapseWs]
  | case3 c1 c2 t hif ih =>
    rw [show collapseWs (c1 :: c2 :: t) = collapseWs (c2 :: t) from by
      simp [collapseWs, hif]]
    exact ih
  | case4 c1 c2 t hif ih =>
    rw [show collapseWs (c1 :: c2 :: t) =
        (if isSpace c1 then ' ' else c1) :: collapseWs (c2 :: t) from by
      simp [collapseWs, hif]]
    rw [List.chain'_cons']
    refine ⟨?_, ih⟩
    intro y hy
    rw [collapseWs_head t c2] at hy
    rcases Option.mem_some_iff.mp hy with rfl
    simp only [Bool.and_eq_true, not_and] at hif
    by_cases hc2 : isSpace c2 = true
    · have hc1 : ¬ isSpace c1 = true := fun h => hif h hc2
      have hc1' : isSpace c1 = false := by simpa using hc1
      rw [if_neg hc1]
      exact Or.inl hc1'
    · have hc2' : isSpace c2 = false := by simpa using hc2
      exact Or.inr (by simp [hc2'])

theorem collapseWs_eq_self (l : List Char)
    (hws : ∀ c ∈ l, isSpace c = true → c = ' ')
    (hch : List.Chain' (fun a b => isSpace a = false ∨ isSpace b = false) l) :
    collapseWs l = l := by
  induction l using collapseWs.induct with
  | case1 => rfl
  | case2 c =>
    simp only [collapseWs]
    split
    · rw [hws c (List.mem_singleton.mpr rfl) (by assumption)]
    · rfl
  | case3 c1 c2 t hif ih =>
    exfalso
    rcases (List.chain'_cons.mp hch).1 with h | h <;>
      simp only [Bool.and_eq_true] at hif <;> simp [hif.1, hif.2] at h
  | case4 c1 c2 t hif ih =>
    rw [show collapseWs (c1 :: c2 :: t) =
        (if isSpace c1 then ' ' else c1) :: collapseWs (c2 :: t) from by
      simp [collapseWs, hif]]
    have htail := ih (fun c hc => hws c (List.mem_cons_of_mem c1 hc))
      (List.chain'_cons.mp hch).2
    rw [htail]
    split
    · rw [hws c1 (List.mem_cons_self _ _) (by assumption)]
    · rfl

theorem filter_nonws_collapseWs (l : List Char) :
    (collapseWs l).filter (fun c => !isSpace c) = l.filter (fun c => !isSpace c) := by
  induction l using collapseWs.induct with
  | case1 => rfl
  | case2 c =>
    by_cases hc : isSpace c = true
    · have h1 : collapseWs [c] = [' '] := by simp [collapseWs, hc]
      have hsp : isSpace ' ' = true := rfl
      rw [h1, List.filter_cons_of_neg (by simp [hsp]),
        List.filter_cons_of_neg (by simp [hc])]
    · have hc' : isSpace c = false := by simpa using hc
      have h1 : collapseWs [c] = [c] := by simp [collapseWs, hc']
      rw [h1]
  | case3 c1 c2 t hif ih =>
    have hstep : collapseWs (c1 :: c2 :: t) = collapseWs (c2 :: t) := by
      simp [collapseWs, hif]
    simp only [Bool.and_eq_true] at hif
    rw [hstep, ih]
    conv_rhs => rw [List.filter_cons_of_neg (by simp [hif.1])]
  | case4 c1 c2 t hif ih =>
    have hstep : collapseWs (c1 :: c2 :: t) =
        (if isSpace c1 then ' ' else c1) :: collapseWs (c2 :: t) := by
      simp [collapseWs, hif]
    by_cases hc1 : isSpace c1 = true
    · have hsp : isSpace ' ' = true := rfl
      rw [hstep, if_pos hc1, List.filter_cons_of_neg (by simp [hsp]), ih]
      conv_rhs => rw [List.filter_cons_of_neg (by simp [hc1])]
    · have hc1' : isSpace c1 = false := by simpa using hc1
      rw [hstep, if_neg hc1, List.filter_cons_of_pos (by simp [hc1']), ih]
      conv_rhs => rw [List.filter_cons_of_pos (by simp [hc1'])]

theorem head?_dropWhile (p : Char → Bool) :
    ∀ l : List Char, ∀ c ∈ (l.dropWhile p).head?, p c = false := by
  intro l
  induction l with
  | nil => simp [List.dropWhile]
  | cons a t ih =>
    intro c hc
    by_cases ha : p a = true
    · rw [List.dropWhile_cons_of_pos ha] at hc
      exact ih c hc
    · rw [List.dropWhile_cons_of_neg ha] at hc
      rcases Option.mem_some_iff.mp hc with rfl
      simpa using ha

theorem stripList_sublist (l : List Char) : List.Sublist (stripList l) l := by
  unfold stripList
  have h1 : List.Sublist ((l.dropWhile isSpace).reverse.dropWhile isSpace)
      (l.dropWhile isSpace).reverse := List.dropWhile_sublist _
  have h2 := List.reverse_sublist.mpr h1
  rw [List.reverse_reverse] at h2
  exact h2.trans (List.dropWhile_sublist _)

theorem mem_stripList (l : List Char) : ∀ c ∈ stripList l, c ∈ l :=
  fun _ hc => (stripList_sublist l).mem hc

theorem stripList_between (l : List Char) : stripList l <:+: l := by
  obtain ⟨a, ha⟩ := List.dropWhile_suffix (l := l) isSpace
  obtain ⟨b, hb⟩ := List.dropWhile_suffix (l := (l.dropWhile isSpace).reverse) isSpace
  refine ⟨a, b.reverse, ?_⟩
  have : stripList l ++ b.reverse = l.dropWhile isSpace := by
    unfold stripList
    rw [← List.reverse_append, hb, List.reverse_reverse]
  rw [List.append_assoc, this, ha]

theorem stripList_head (l : List Char) :
    ∀ c ∈ (stripList l).head?, isSpace c = false := by
  intro c hc
  have h0 : (l.dropWhile isSpace).reverse.dropWhile isSpace <:+
      (l.dropWhile isSpace).reverse := List.dropWhile_suffix isSpace
  have hpre : stripList l <+: l.dropWhile isSpace := by
    have h1 := List.reverse_prefix.mpr h0
    rwa [List.reverse_reverse] at h1
  obtain ⟨b, hb⟩ := hpre
  cases hsl : stripList l with
  | nil => rw [hsl] at hc; exact absurd hc (by simp)
  | cons x xs =>
    rw [hsl] at hc hb
    have hcx : c = x := by simpa using hc.symm
    subst hcx
    have hhead : (l.dropWhile isSpace).head? = some c := by rw [← hb]; rfl
    exact head?_dropWhile isSpace l c (by rw [hhead]; rfl)

theorem stripList_getLast (l : List Char) :
    ∀ c ∈ (stripList l).getLast?, isSpace c = false := by
  intro c hc
  unfold stripList at hc
  rw [List.getLast?_reverse] at hc
  exact head?_dropWhile isSpace _ c hc

theorem stripList_eq_self (l : List Char)
    (h1 : ∀ c ∈ l.head?, isSpace c = false)
    (h2 : ∀ c ∈ l.getLast?, isSpace c = false) : stripList l = l := by
  have hd : l.dropWhile isSpace = l := by
    cases l with
    | nil => rfl
    | cons a t =>
      have := h1 a rfl
      rw [List.dropWhile_cons_of_neg (by simp [this])]
  have hd2 : l.reverse.dropWhile isSpace = l.reverse := by
    cases hr : l.reverse with
    | nil => rfl
    | cons a t =>
      have ha : l.getLast? = some a := by
        rw [← List.head?_reverse, hr]; rfl
      have := h2 a (by rw [ha]; rfl)
      rw [List.dropWhile_cons_of_neg (by simp [this])]
  unfold stripList
  rw [hd, hd2, List.reverse_reverse]

theorem sanitize_data (s : String) : (sanitize_filename s).data =
    stripList (collapseWs (s.data.filter (fun c => !invalidFileChar c))) := rfl

theorem sanitize_no_invalid (s : String) :
    ∀ c ∈ (sanitize_filename s).data, invalidFileChar c = false := by
  intro c hc
  rw [sanitize_data] at hc
  rcases mem_collapseWs _ c (mem_stripList _ c hc) with h2 | rfl
  · have := (List.mem_filter.mp h2).2
    simpa using this
  · rfl

theorem sanitize_ws_space (s : String) :
    ∀ c ∈ (sanitize_filename s).data, isSpace c = true → c = ' ' := by
  intro c hc
  rw [sanitize_data] at hc
  exact collapseWs_ws_space _ c (mem_stripList _ c hc)

theorem sanitize_chain (s : String) :
    List.Chain' (fun a b => isSpace a = false ∨ isSpace b = false)
      (sanitize_filename s).data := by
  rw [sanitize_data]
  exact List.Chain'.infix (collapseWs_chain _) (stripList_between _)

theorem sanitize_head (s : String) :
    ∀ c ∈ (sanitize_filename s).data.head?, isSpace c = false :=
  stripList_head _

theorem sanitize_last (s : String) :
    ∀ c ∈ (sanitize_filename s).data.getLast?, isSpace c = false :=
  stripList_getLast _

theorem sanitize_filter_eq (s : String) :
    (sanitize_filename s).data.filter (fun c => !isSpace c) =
      s.data.filter (fun c => !isSpace c && !invalidFileChar c) := by
  rw [sanitize_data, stripList_filter, filter_nonws_collapseWs, List.filter_filter]

/-- C8: `sanitize_filename` keeps exactly the non-whitespace non-invalid
characters in order, leaves none of the nine invalid characters, normalizes
every whitespace to single interior spaces (no two adjacent, none at either
end), and maps the two claimed examples as stated. -/
theorem sanitize_filename_spec :
    (∀ s : String,
      (sanitize_filename s).data.filter (fun c => !isSpace c) =
        s.data.filter (fun c => !isSpace c && !invalidFileChar c) ∧
      (∀ c ∈ (sanitize_filename s).data, invalidFileChar c = false) ∧
      (∀ c ∈ (sanitize_filename s).data, isSpace c = true → c = ' ') ∧
      List.Chain' (fun a b => isSpace a = false ∨ isSpace b = false)
        (sanitize_filename s).data ∧
      (∀ c ∈ (sanitize_filename s).data.head?, isSpace c = false) ∧
      (∀ c ∈ (sanitize_filename s).data.getLast?, isSpace c = false)) ∧
    sanitize_filename "A:B\"C" = "ABC" ∧
    sanitize_filename "a   b" = "a b" :=
  ⟨fun s => ⟨sanitize_filter_eq s, sanitize_no_invalid s, sanitize_ws_space s,
    sanitize_chain s, sanitize_head s, sanitize_last s⟩, rfl, rfl⟩

theorem sanitize_filename_spec_witness :
    invalidFileChar 'b' = false ∧ ' ' = ' ' ∧ isSpace 'a' = false :=
  ⟨(sanitize_filename_spec.1 "a   b").2.1 'b' (by decide),
   (sanitize_filename_spec.1 "a   b").2.2.1 ' ' (by decide) (by decide),
   (sanitize_filename_spec.1 "a   b").2.2.2.2.1 'a' (by decide)⟩

/-- C9: `sanitize_filename` is idempotent: its output contains no invalid
character, only normalized whitespace, and no leading or trailing
whitespace, so a second application changes nothing. -/
theorem sanitize_filename_idempotent :
    ∀ s : String, sanitize_filename (sanitize_filename s) = sanitize_filename s := by
  intro s
  have h1 : ((sanitize_filename s).data).filter (fun c => !invalidFileChar c) =
      (sanitize_filename s).data :=
    List.filter_eq_self.mpr (fun c hc => by simp [sanitize_no_invalid s c hc])
  have h2 : collapseWs ((sanitize_filename s).data) = (sanitize_filename s).data :=
    collapseWs_eq_self _ (sanitize_ws_space s) (sanitize_chain s)
  have h3 : stripList ((sanitize_filename s).data) = (sanitize_filename s).data :=
    stripList_eq_self _ (sanitize_head s) (sanitize_last s)
  show String.mk (stripList (collapseWs
    ((sanitize_filename s).data.filter (fun c => !invalidFileChar c)))) =
      sanitize_filename s
  rw [h1, h2, h3]

/-! ## Claim C10 -/

/-- C10: the digit-run extraction succeeds exactly when the id contains a
decimal digit; on non-empty mappings whose keys all contain a digit
`format_footnotes` returns a string (the error branch is unreachable),
while a single digit-free key makes it raise (modelled as `none`). -/
theorem format_footnotes_digit_precondition :
    (∀ s : String, (keyRun s).isSome = true ↔ ∃ c ∈ s.data, c.isDigit = true) ∧
    (∀ fd : List (String × NodeList), fd ≠ [] →
      (∀ kv ∈ fd, (keyRun kv.1).isSome) → (format_footnotes fd).isSome = true) ∧
    (∀ fd : List (String × NodeList), fd ≠ [] →
      (∃ kv ∈ fd, keyRun kv.1 = none) → format_footnotes fd = none) := by
  refine ⟨fun s => ?_, fun fd h1 h2 => ?_, fun fd h1 h2 => ?_⟩
  · show (firstRunAux s.data).isSome = true ↔ _
    induction s.data with
    | nil => simp [firstRunAux]
    | cons c t ih =>
      by_cases hc : c.isDigit = true
      · simp [firstRunAux, hc]
      · have hc' : c.isDigit = false := by simpa using hc
        simp [firstRunAux, hc', ih]
  · rw [format_footnotes_eq fd h1 h2]
    rfl
  · have he : fd.isEmpty = false := by
      cases fd with
      | nil => exact absurd rfl h1
      | cons x xs => rfl
    obtain ⟨kv, hmem, hnone⟩ := h2
    have hall : fd.all (fun kv => (keyRun kv.1).isSome) = false := by
      rcases hb : fd.all (fun kv => (keyRun kv.1).isSome) with _ | _
      · rfl
      · have := List.all_eq_true.mp hb kv hmem
        rw [hnone] at this
        exact absurd this (by simp)
    simp [format_footnotes, he, hall]

theorem format_footnotes_digit_precondition_witness :
    (format_footnotes [("note1", NodeList.nil)]).isSome = true ∧
    format_footnotes [("x", NodeList.nil)] = none :=
  ⟨format_footnotes_digit_precondition.2.1 [("note1", NodeList.nil)]
      (by intro h; simp at h)
      (by
        intro kv hkv
        rcases List.mem_singleton.mp hkv with rfl
        rfl),
   format_footnotes_digit_precondition.2.2 [("x", NodeList.nil)]
      (by intro h; simp at h)
      ⟨("x", NodeList.nil), List.mem_singleton.mpr rfl, rfl⟩⟩
